import Mathlib

/-!
Verification development for the split-APK reconciliation engine of
patch-apk (src/patch-apk.py).  Python strings are embedded as lists of
characters (`Str`), Python dicts as association lists with dict update
semantics (`Dict`), and fallible code (uncaught Python exceptions such as
`KeyError`) as `Except`.  Each definition is a direct translation of the
corresponding function or code block of the source file; line numbers in
doc comments refer to src/patch-apk.py.
-/

set_option autoImplicit false

namespace PatchApk

/-- Python strings, embedded as lists of characters. -/
abbrev Str := List Char

/-- The marker apktool uses for placeholder resource names
(the constant string APKTOOL_DUMMY_ used throughout the source). -/
def dummyMarker : Str := "APKTOOL_DUMMY_".toList

/-- NULL_DECODED_DRAWABLE_COLOR from line 15 of the source. -/
def nullDecodedDrawableColor : Str := "#000000ff".toList

/-- Python s.startswith(p) (note the argument order: the string first). -/
def strStartsWith : Str → Str → Bool
  | _, [] => true
  | [], _ :: _ => false
  | c :: s, p :: ps => decide (c = p) && strStartsWith s ps

/-- Python s.endswith(p). -/
def strEndsWith (s p : Str) : Bool :=
  strStartsWith s.reverse p.reverse

/-- Python s.lower(), restricted to the ASCII casing the source relies on. -/
def strToLower (s : Str) : Str :=
  s.map Char.toLower

/-- Python val.split("/"): split on every slash, keeping empty pieces. -/
def splitSlash : Str → List Str
  | [] => [[]]
  | c :: rest =>
      if c = '/' then [] :: splitSlash rest
      else
        match splitSlash rest with
        | [] => [[c]]
        | s :: ss => (c :: s) :: ss

/-- A Python dict, embedded as an association list; keys are unique when the
dict is built with `dset` starting from `[]`, matching real dicts. -/
abbrev Dict (α : Type) := List (Str × α)

/-- Python d[k] lookup, returning none when the key is absent (a real lookup
on an absent key raises KeyError; call sites model that with `Except`). -/
def dget? {α : Type} : Dict α → Str → Option α
  | [], _ => none
  | (k', v) :: rest, k => if k' = k then some v else dget? rest k

/-- Python `k in d`. -/
def dmem {α : Type} (m : Dict α) (k : Str) : Bool :=
  (dget? m k).isSome

/-- Python d[k] = v: overwrite the existing binding, else append. -/
def dset {α : Type} : Dict α → Str → α → Dict α
  | [], k, v => [(k, v)]
  | (k', v') :: rest, k, v =>
      if k' = k then (k, v) :: rest else (k', v') :: dset rest k v

/-- Python del d[k]. -/
def ddel {α : Type} : Dict α → Str → Dict α
  | [], _ => []
  | (k', v') :: rest, k =>
      if k' = k then ddel rest k else (k', v') :: ddel rest k

/-!
Resolver: fixPublicResourceIDs (lines 444-546), steps 1-3.
A public.xml entry is an element whose name and id attributes may each be
absent (the source guards with name-in-attrib and id-in-attrib checks).
-/

/-- One element of a public-resource table (public.xml). -/
structure PubEntry where
  name : Option Str
  id : Option Str
deriving DecidableEq

/-- The dummy-name resolution map: dummyNameToRealName in the source.
A key bound to none is a recorded-but-unresolved placeholder. -/
abbrev RMap := Dict (Option Str)

/-- Step 1 (lines 457-462): record id-to-dummy-name and initialize the
resolution map.  The source checks the dummy NAME for membership in the
id-keyed table idToDummyName; that quirk is kept faithfully. -/
def step1 (entries : List PubEntry) : Dict Str × RMap :=
  entries.foldl
    (fun acc e =>
      match e.name, e.id with
      | some n, some i =>
          if strStartsWith n dummyMarker && !(dmem acc.1 n) then
            (dset acc.1 i n, dset acc.2 n none)
          else acc
      | _, _ => acc)
    ([], [])

/-- The per-entry action of step 2 (lines 473-477): a split entry whose id is
recorded overwrites the resolution unconditionally. -/
def step2Entry (idMap : Dict Str) (acc : RMap × Nat) (e : PubEntry) : RMap × Nat :=
  match e.name, e.id with
  | some n, some i =>
      match dget? idMap i with
      | some dn => (dset acc.1 dn (some n), acc.2 + 1)
      | none => acc
  | _, _ => acc

/-- Step 2 (lines 469-478): scan each split tree's public.xml (none when the
split has no public.xml, line 471) in order. -/
def step2 (idMap : Dict Str) (d2 : RMap) (splits : List (Option (List PubEntry))) :
    RMap × Nat :=
  splits.foldl
    (fun acc split =>
      match split with
      | none => acc
      | some entries => entries.foldl (step2Entry idMap) acc)
    (d2, 0)

/-- The per-entry action of step 3 (lines 483-487): rename an entry whose name
is a resolved placeholder; everything else is untouched. -/
def step3Entry (d2 : RMap) (e : PubEntry) : PubEntry × Bool :=
  match e.name, e.id with
  | some n, some _ =>
      match dget? d2 n with
      | some (some real) => ({ e with name := some real }, true)
      | _ => (e, false)
  | _, _ => (e, false)

/-- Step 3 (lines 482-489): rewrite the merged table in place, counting
updates. -/
def step3 (d2 : RMap) (entries : List PubEntry) : List PubEntry × Nat :=
  (entries.map (fun e => (step3Entry d2 e).1),
   entries.countP (fun e => (step3Entry d2 e).2))

/-!
Reference rewriter: step 4 of fixPublicResourceIDs (lines 491-546).
Errors of type Unit model uncaught Python exceptions (KeyError on the
resolution map); a parse failure of a document is a separate, caught case.
-/

/-- The bare-name branch (lines 519-522): the elif arm of the attribute check.
Looking up an unrecorded key raises KeyError (modelled as error). -/
def rewriteBare (m : RMap) (val : Str) : Except Unit (Str × Bool) :=
  if strStartsWith val dummyMarker then
    match dget? m val with
    | none => .error ()
    | some none => .ok (val, false)
    | some (some real) => .ok (real, true)
  else .ok (val, false)

/-- The attribute-value rewrite (lines 513-522).  The source tests
val.startswith("@"), then slash membership, then the second slash component;
slash membership holds exactly when splitSlash yields at least two pieces. -/
def rewriteRefValue (m : RMap) (val : Str) : Except Unit (Str × Bool) :=
  if strStartsWith val ['@'] then
    match splitSlash val with
    | t :: n :: _ =>
        if strStartsWith n dummyMarker then
          match dget? m n with
          | none => .error ()
          | some none => rewriteBare m val
          | some (some real) => .ok (t ++ '/' :: real, true)
        else rewriteBare m val
    | _ => rewriteBare m val
  else rewriteBare m val

/-- The element-text rewrite (lines 532-538): same at-form check as for
attributes, but with no bare-name arm. -/
def rewriteTextValue (m : RMap) (val : Str) : Except Unit (Str × Bool) :=
  if strStartsWith val ['@'] then
    match splitSlash val with
    | t :: n :: _ =>
        if strStartsWith n dummyMarker then
          match dget? m n with
          | none => .error ()
          | some none => .ok (val, false)
          | some (some real) => .ok (t ++ '/' :: real, true)
        else .ok (val, false)
    | _ => .ok (val, false)
  else .ok (val, false)

/-- An XML element as step 4 sees it: its attribute list (a dict in the
source, so keys are unique) and its optional text. -/
structure XmlEl where
  attrib : List (Str × Str)
  text : Option Str
deriving DecidableEq

/-- An XML resource document: its file name and its elements in tree.iter()
order (the rewrite of lines 511-538 is element-wise, so the flattened
iteration order is all that matters). -/
structure XmlDoc where
  fname : Str
  els : List XmlEl
deriving DecidableEq

/-- The attribute loop of lines 513-530, threading the element text because
the drawables fix (lines 527-530) reads and writes el.text inside the loop.
Returns the rewritten attributes, the text after the loop, the number of
replacements made, and whether any replacement happened.  The drawables fix
deliberately does NOT count as a change, exactly as in the source. -/
def procAttrs (m : RMap) (isDraw : Bool) :
    List (Str × Str) → Option Str → Except Unit (List (Str × Str) × Option Str × Nat × Bool)
  | [], text => .ok ([], text, 0, false)
  | (a, v) :: rest, text =>
      match rewriteRefValue m v with
      | .error e => .error e
      | .ok (v', ch) =>
          match procAttrs m isDraw rest
              (if isDraw && decide (a = "name".toList) && text.isNone
               then some nullDecodedDrawableColor else text) with
          | .error e => .error e
          | .ok (rest', text2, u, c) =>
              .ok ((a, v') :: rest', text2, (if ch then 1 else 0) + u, ch || c)

/-- Processing of one element (attribute loop, then the text check of
lines 532-538). -/
def procEl (m : RMap) (isDraw : Bool) (el : XmlEl) : Except Unit (XmlEl × Nat × Bool) :=
  match procAttrs m isDraw el.attrib el.text with
  | .error e => .error e
  | .ok (attrs', text1, u1, c1) =>
      match text1 with
      | none => .ok (⟨attrs', none⟩, u1, c1)
      | some t =>
          match rewriteTextValue m t with
          | .error e => .error e
          | .ok (t', ch) => .ok (⟨attrs', some t'⟩, u1 + (if ch then 1 else 0), c1 || ch)

/-- Processing of all elements of one document in iteration order. -/
def procEls (m : RMap) (isDraw : Bool) : List XmlEl → Except Unit (List XmlEl × Nat × Bool)
  | [] => .ok ([], 0, false)
  | el :: rest =>
      match procEl m isDraw el with
      | .error e => .error e
      | .ok (el', u1, c1) =>
          match procEls m isDraw rest with
          | .error e => .error e
          | .ok (rest', u2, c2) => .ok (el' :: rest', u1 + u2, c1 || c2)

/-- In-memory processing of one parsed document; the drawables fix applies
exactly when the file is named drawables.xml (line 528). -/
def processDoc (m : RMap) (doc : XmlDoc) : Except Unit (XmlDoc × Nat × Bool) :=
  match procEls m (decide (doc.fname = "drawables.xml".toList)) doc.els with
  | .error e => .error e
  | .ok (els', u, c) => .ok (⟨doc.fname, els'⟩, u, c)

/-- One file of the res tree walk: a parse failure (the only caught
exception, lines 544-545, which skips the file) or a parsed document. -/
abbrev ResFile := Except Unit XmlDoc

/-- Per-file behaviour of step 4: parse failures are skipped and leave the
file untouched; a processed document is written back only when the changed
flag was set (lines 541-543); a KeyError (error) propagates. -/
def step4File (m : RMap) (file : ResFile) : Except Unit (ResFile × Nat) :=
  match file with
  | .error _ => .ok (.error (), 0)
  | .ok doc =>
      match processDoc m doc with
      | .error e => .error e
      | .ok (doc', u, c) => .ok (.ok (if c then doc' else doc), u)

/-- Step 4 over the whole walk of the res directory; the result is the
on-disk state of each file after the pass plus the replacement count. -/
def step4 (m : RMap) : List ResFile → Except Unit (List ResFile × Nat)
  | [] => .ok ([], 0)
  | f :: rest =>
      match step4File m f with
      | .error e => .error e
      | .ok (f', u1) =>
          match step4 m rest with
          | .error e => .error e
          | .ok (rest', u2) => .ok (f' :: rest', u1 + u2)

/-- The merged (base) tree as fixPublicResourceIDs sees it: the optional
public-resource table res/values/public.xml and the walked res documents. -/
structure BaseApk where
  pubXml : Option (List PubEntry)
  resFiles : List ResFile

/-- fixPublicResourceIDs (lines 444-546): bail immediately when the base has
no public.xml (lines 446-447), otherwise run steps 1-4.  Returns the updated
tree, the number of located true names, and the step 4 replacement count. -/
def fixPublicResourceIDs (base : BaseApk) (splits : List (Option (List PubEntry))) :
    Except Unit (BaseApk × Nat × Nat) :=
  match base.pubXml with
  | none => .ok (base, 0, 0)
  | some entries =>
      let s1 := step1 entries
      let (d2, found) := step2 s1.1 s1.2 splits
      let (entries3, _) := step3 d2 entries
      match step4 d2 base.resFiles with
      | .error e => .error e
      | .ok (files4, upd4) => .ok ({ pubXml := some entries3, resFiles := files4 }, found, upd4)

/-!
Duplicate style filter: hackRemoveDuplicateStyleEntries (lines 560-587).
-/

/-- A child item element of a style: its optional name attribute and its
remaining content (text), which identifies the occurrence. -/
structure ItemEl where
  name : Option Str
  value : Str
deriving DecidableEq

/-- A style element of styles.xml. -/
structure StyleEl where
  styleName : Str
  items : List ItemEl
deriving DecidableEq

/-- The scan of one style's children (lines 571-576): an item whose name was
already seen is flagged for removal, otherwise its name is appended to
itemNames.  An item with no name attribute raises KeyError in the else
branch (itemEl.attrib applied to the missing key), modelled as error.
Returns the kept items and the number flagged. -/
def filterStyleItems : List ItemEl → List Str → Except Unit (List ItemEl × Nat)
  | [], _ => .ok ([], 0)
  | it :: rest, seen =>
      match it.name with
      | some n =>
          if n ∈ seen then
            match filterStyleItems rest seen with
            | .error e => .error e
            | .ok (r, k) => .ok (r, k + 1)
          else
            match filterStyleItems rest (seen ++ [n]) with
            | .error e => .error e
            | .ok (r, k) => .ok (it :: r, k)
      | none => .error ()

/-- The scan over all style elements (line 570 findall), accumulating the
per-style results and the total duplicate count. -/
def scanStyles : List StyleEl → Except Unit (List StyleEl × Nat)
  | [] => .ok ([], 0)
  | st :: rest =>
      match filterStyleItems st.items [] with
      | .error e => .error e
      | .ok (kept, k) =>
          match scanStyles rest with
          | .error e => .error e
          | .ok (rest', total) => .ok ({ st with items := kept } :: rest', k + total)

/-- hackRemoveDuplicateStyleEntries (lines 560-587): bail when there is no
styles.xml; otherwise scan, remove the flagged duplicates, and write the
file back only when at least one duplicate was removed.  The result is the
on-disk document, the reported count, and whether the file was written. -/
def hackRemoveDuplicateStyleEntries (styles? : Option (List StyleEl)) :
    Except Unit (Option (List StyleEl) × Nat × Bool) :=
  match styles? with
  | none => .ok (none, 0, false)
  | some styles =>
      match scanStyles styles with
      | .error e => .error e
      | .ok (newStyles, total) =>
          if 0 < total then .ok (some newStyles, total, true)
          else .ok (some styles, total, false)

/-- Spec-side description of the duplicate filter, written from the words of
the specification ("the first occurrence of each item name is kept, every
subsequent occurrence with the same name is queued for removal"), for
comparison against filterStyleItems.  Unnamed items are kept here; the code
comparison theorem only covers runs in which the source did not crash, and
those contain no unnamed items. -/
def keepFirstOccurrences : List Str → List ItemEl → List ItemEl
  | _, [] => []
  | seen, it :: rest =>
      match it.name with
      | none => it :: keepFirstOccurrences seen rest
      | some n =>
          if n ∈ seen then keepFirstOccurrences seen rest
          else it :: keepFirstOccurrences (seen ++ [n]) rest

/-!
Manifest patcher: disableApkSplitting (lines 595-627).  The namespace piece
ns is the brace-wrapped android namespace URI resolved dynamically at
lines 602-605; it is passed in abstractly.  The model covers the standard
manifest shape in which the meta-data elements are direct children of the
single application element (tree.iter() visits the application element
before its children, so appEl is set when they are reached, and
appEl.remove only succeeds on direct children).
-/

/-- A manifest element: tag and attribute dict. -/
structure MEl where
  tag : Str
  attrib : Dict Str
deriving DecidableEq

/-- The meta-data removal test of lines 617-622: the element is tagged
meta-data and its namespaced name attribute equals one of the two
split-signaling keys. -/
def isSplitsMetaData (ns : Str) (el : MEl) : Bool :=
  decide (el.tag = "meta-data".toList) &&
    match dget? el.attrib (ns ++ "name".toList) with
    | some v =>
        decide (v = "com.android.vending.splits.required".toList) ||
        decide (v = "com.android.vending.splits".toList)
    | none => false

/-- disableApkSplitting (lines 607-624) on the application element and its
children: delete isSplitRequired when present, set extractNativeLibs to
"true" ONLY when it is already present, and remove the matching meta-data
children. -/
def disableApkSplitting (ns : Str) (app : MEl) (children : List MEl) : MEl × List MEl :=
  let a1 := if dmem app.attrib (ns ++ "isSplitRequired".toList)
    then ddel app.attrib (ns ++ "isSplitRequired".toList) else app.attrib
  let a2 := if dmem a1 (ns ++ "extractNativeLibs".toList)
    then dset a1 (ns ++ "extractNativeLibs".toList) "true".toList else a1
  (⟨app.tag, a2⟩, children.filter (fun c => !(isSplitsMetaData ns c)))

/-!
Tree merger: copySplitApkFiles (lines 410-436).  The walk of one split is a
set of (root, fname) pairs; this predicate decides whether a given file is
moved into the base tree, translating the three skip conditions.
-/

/-- Whether copySplitApkFiles moves the file fname found in directory root of
the split rooted at apkdir into the base tree rooted at baseapkdir.
Paths are POSIX path strings as the source manipulates them. -/
def copySplitApkFileMoved (baseapkdir apkdir root fname : Str) : Bool :=
  if strStartsWith root (apkdir ++ '/' :: "original".toList) then false
  else if root = apkdir ∧ (fname = "AndroidManifest.xml".toList ∨ fname = "apktool.yml".toList)
    then false
  else if strEndsWith (strToLower fname) ".xml".toList &&
      strStartsWith (baseapkdir ++ (root ++ '/' :: fname).drop apkdir.length)
        (baseapkdir ++ '/' :: "res".toList) then false
  else true

/-!
Ampersand fix-up: combineSplitAPKs line 383 with rawREReplace
(lines 632-643), applied to res/values/strings.xml with the pattern
matching a literal ampersand entity missing its semicolon.
-/

/-- re.sub with pattern capturing an ampersand entity followed by a
non-semicolon, inserting the missing semicolon; left-to-right,
non-overlapping, exactly as the regex engine scans. -/
def ampFix : Str → Str
  | [] => []
  | '&' :: 'a' :: 'm' :: 'p' :: c :: rest' =>
      if c = ';' then '&' :: ampFix ('a' :: 'm' :: 'p' :: c :: rest')
      else '&' :: 'a' :: 'm' :: 'p' :: ';' :: c :: ampFix rest'
  | c :: rest => c :: ampFix rest

/-- The strings.xml fix-up of line 383: rawREReplace aborts (line 643) when
the file does not exist, otherwise rewrites the contents in place. -/
def fixImproperlyEscapedAmpersands (strings? : Option Str) : Except Str Str :=
  match strings? with
  | none =>
      .error ("Error: Failed to find file at res/values/strings.xml for pattern replacement").toList
  | some contents => .ok (ampFix contents)

/-!
Auxiliary definitions used only to state theorems: a decidable-equality
instance for Except, the side condition under which the reference rewriter
is idempotent, and spec-side characterizations for comparison.
-/

instance exceptDecEq {ε α : Type} [DecidableEq ε] [DecidableEq α] : DecidableEq (Except ε α)
  | .error e, .error f =>
      if h : e = f then .isTrue (congrArg Except.error h)
      else .isFalse (fun hh => h (by injection hh))
  | .error _, .ok _ => .isFalse (fun hh => Except.noConfusion hh)
  | .ok _, .error _ => .isFalse (fun hh => Except.noConfusion hh)
  | .ok x, .ok y =>
      if h : x = y then .isTrue (congrArg Except.ok h)
      else .isFalse (fun hh => h (by injection hh))

/-- A resolved true name is benign when it neither begins with the
placeholder marker nor with the at-sign sigil. -/
def goodName (o : Option Str) : Bool :=
  match o with
  | some r => !(strStartsWith r dummyMarker) && !(strStartsWith r ['@'])
  | none => true

/-- The side condition for idempotence of the reference rewriter: every
resolution recorded in the map is benign. -/
def goodMap (m : RMap) : Prop :=
  ∀ p ∈ m, goodName p.2 = true

instance (m : RMap) : Decidable (goodMap m) :=
  List.decidableBAll _ m

/-- The split-table entries of one table whose recorded id resolves (through
idToDummyName) to the placeholder d, in scan order. -/
def entryMatches (idMap : Dict Str) (d : Str) (entries : List PubEntry) : List Str :=
  entries.filterMap (fun e =>
    match e.name, e.id with
    | some n, some i => if dget? idMap i = some d then some n else none
    | _, _ => none)

/-- All split-table entries across the split scan that resolve to the
placeholder d, in scan order. -/
def matchingNames (idMap : Dict Str) (d : Str) :
    List (Option (List PubEntry)) → List Str
  | [] => []
  | none :: rest => matchingNames idMap d rest
  | some entries :: rest => entryMatches idMap d entries ++ matchingNames idMap d rest

/-- The last element of a list of names, if any. -/
def lastName : List Str → Option Str
  | [] => none
  | [n] => some n
  | _ :: n :: rest => lastName (n :: rest)

/-! Concrete inputs used by counterexample theorems. -/

/-- A base public.xml with two placeholder entries. -/
def cexBase : List PubEntry :=
  [⟨some "APKTOOL_DUMMY_1".toList, some "0x01".toList⟩,
   ⟨some "APKTOOL_DUMMY_2".toList, some "0x02".toList⟩]

/-- A split public.xml that resolves id 0x01 to a name that is itself a
placeholder name (splits are decompiled by the same tool, so their tables
can also contain placeholder names), and id 0x02 to a plain name. -/
def cexSplit : List PubEntry :=
  [⟨some "APKTOOL_DUMMY_2".toList, some "0x01".toList⟩,
   ⟨some "real_thing".toList, some "0x02".toList⟩]

/-- The resolution map the resolver builds from cexBase and cexSplit. -/
def cexMap : RMap :=
  (step2 (step1 cexBase).1 (step1 cexBase).2 [some cexSplit]).1

/-- A document holding one reference to the first placeholder. -/
def cexDoc : XmlDoc :=
  ⟨"layout.xml".toList, [⟨[("x".toList, "@string/APKTOOL_DUMMY_1".toList)], none⟩]⟩

/-- The document after one rewriter pass. -/
def cexDoc1 : XmlDoc :=
  ⟨"layout.xml".toList, [⟨[("x".toList, "@string/APKTOOL_DUMMY_2".toList)], none⟩]⟩

/-- The document after a second rewriter pass. -/
def cexDoc2 : XmlDoc :=
  ⟨"layout.xml".toList, [⟨[("x".toList, "@string/real_thing".toList)], none⟩]⟩

/-! Foundational lemmas about the string and dict embeddings. -/


theorem dget?_dset_self {α : Type} (m : Dict α) (k : Str) (v : α) :
    dget? (dset m k v) k = some v := by
  induction m with
  | nil => simp [dset, dget?]
  | cons p rest ih =>
      by_cases h : p.1 = k
      · simp [dset, dget?, h]
      · simp [dset, dget?, h, ih]

theorem dget?_dset_ne {α : Type} (m : Dict α) (k k' : Str) (v : α) (h : k' ≠ k) :
    dget? (dset m k v) k' = dget? m k' := by
  have h' : k ≠ k' := Ne.symm h
  induction m with
  | nil => simp [dset, dget?, h']
  | cons p rest ih =>
      by_cases hp : p.1 = k
      · simp [dset, dget?, hp, h']
      · simp [dset, dget?, hp, ih]

theorem dget?_ddel_self {α : Type} (m : Dict α) (k : Str) :
    dget? (ddel m k) k = none := by
  induction m with
  | nil => simp [ddel, dget?]
  | cons p rest ih =>
      rcases p with ⟨k', v'⟩
      by_cases h : k' = k
      · simpa [ddel, h] using ih
      · simpa [ddel, dget?, h] using ih

theorem dget?_ddel_ne {α : Type} (m : Dict α) (k k' : Str) (h : k' ≠ k) :
    dget? (ddel m k) k' = dget? m k' := by
  induction m with
  | nil => simp [ddel, dget?]
  | cons p rest ih =>
      rcases p with ⟨a, v⟩
      by_cases hp : a = k
      · have hp' : a ≠ k' := by rw [hp]; exact Ne.symm h
        simpa [ddel, hp, dget?, hp', Ne.symm h] using ih
      · by_cases hp' : a = k'
        · simp [ddel, hp, dget?, hp', h]
        · simp [ddel, hp, dget?, hp', ih]

/-! Basic lemmas about `strStartsWith` and `splitSlash`. -/

theorem strStartsWith_append {α : Str} (r : Str) :
    strStartsWith (α ++ r) α = true := by
  induction α with
  | nil => simp [strStartsWith]
  | cons c s ih => simp [strStartsWith, ih]

theorem strStartsWith_append_of {s p r : Str} (h : strStartsWith s p = true) :
    strStartsWith (s ++ r) p = true := by
  induction p generalizing s with
  | nil => simp [strStartsWith]
  | cons c ps ih =>
      cases s with
      | nil => simp [strStartsWith] at h
      | cons a s' =>
          simp only [strStartsWith, Bool.and_eq_true, decide_eq_true_eq] at h
          simp [strStartsWith, h.1, ih h.2]

theorem strStartsWith_cons_head {s : Str} {p : Char} {ps : Str}
    (h : strStartsWith s (p :: ps) = true) : ∃ s', s = p :: s' := by
  cases s with
  | nil => simp [strStartsWith] at h
  | cons a s' =>
      simp only [strStartsWith, Bool.and_eq_true, decide_eq_true_eq] at h
      exact ⟨s', by rw [h.1]⟩

theorem strStartsWith_cons_ne {c : Char} {s : Str} {p : Char} {ps : Str}
    (h : c ≠ p) : strStartsWith (c :: s) (p :: ps) = false := by
  simp [strStartsWith, h]

theorem strStartsWith_self_ext (s : Str) (c : Char) (r : Str) :
    strStartsWith s (s ++ c :: r) = false := by
  induction s with
  | nil => simp [strStartsWith]
  | cons a s' ih => simp [strStartsWith, ih]

theorem splitSlash_ne_nil (l : Str) : splitSlash l ≠ [] := by
  cases l with
  | nil => simp [splitSlash]
  | cons c rest =>
      by_cases h : c = '/'
      · simp [splitSlash, h]
      · simp only [splitSlash, if_neg h]
        cases splitSlash rest <;> simp

theorem splitSlash_no_slash {l : Str} (h : '/' ∉ l) : splitSlash l = [l] := by
  induction l with
  | nil => simp [splitSlash]
  | cons c rest ih =>
      have hc : c ≠ '/' := fun hc => h (hc ▸ List.mem_cons_self c rest)
      have hr : '/' ∉ rest := fun hr => h (List.mem_cons_of_mem c hr)
      simp [splitSlash, hc, ih hr]

theorem splitSlash_append {t : Str} (r : Str) (h : '/' ∉ t) :
    splitSlash (t ++ '/' :: r) = t :: splitSlash r := by
  induction t with
  | nil => simp [splitSlash]
  | cons c t' ih =>
      have hc : c ≠ '/' := fun hc => h (hc ▸ List.mem_cons_self c t')
      have ht : '/' ∉ t' := fun ht => h (List.mem_cons_of_mem c ht)
      simp [splitSlash, hc, ih ht]

theorem splitSlash_head_no_slash {l t : Str} {rest : List Str}
    (h : splitSlash l = t :: rest) : '/' ∉ t := by
  induction l generalizing t rest with
  | nil =>
      simp only [splitSlash] at h
      cases h
      simp
  | cons c l' ih =>
      by_cases hc : c = '/'
      · simp only [splitSlash, if_pos hc] at h
        cases h
        simp
      · simp only [splitSlash, if_neg hc] at h
        cases hs : splitSlash l' with
        | nil => exact absurd hs (splitSlash_ne_nil l')
        | cons s ss =>
            rw [hs] at h
            cases h
            intro hmem
            rcases List.mem_cons.mp hmem with h1 | h2
            · exact hc h1.symm
            · exact ih hs h2

theorem splitSlash_recon {l t : Str} {rest : List Str}
    (h : splitSlash l = t :: rest) :
    (rest = [] ∧ l = t) ∨ ∃ r, l = t ++ '/' :: r ∧ splitSlash r = rest := by
  induction l generalizing t rest with
  | nil =>
      simp only [splitSlash] at h
      cases h
      exact Or.inl ⟨rfl, rfl⟩
  | cons c l' ih =>
      by_cases hc : c = '/'
      · simp only [splitSlash, if_pos hc] at h
        cases h
        exact Or.inr ⟨l', by simp [hc], rfl⟩
      · simp only [splitSlash, if_neg hc] at h
        cases hs : splitSlash l' with
        | nil => exact absurd hs (splitSlash_ne_nil l')
        | cons s ss =>
            rw [hs] at h
            cases h
            rcases ih hs with ⟨h1, h2⟩ | ⟨r, hr1, hr2⟩
            · exact Or.inl ⟨h1, by rw [h2]⟩
            · exact Or.inr ⟨r, by simp [hr1], hr2⟩

/-! Lemmas about the value-level reference rewrite. -/

theorem dget?_mem {α : Type} {m : Dict α} {k : Str} {v : α}
    (h : dget? m k = some v) : (k, v) ∈ m := by
  induction m with
  | nil => simp [dget?] at h
  | cons p rest ih =>
      rcases p with ⟨a, w⟩
      by_cases ha : a = k
      · simp [dget?, ha] at h
        simp [ha, h]
      · simp only [dget?, if_neg ha] at h
        exact List.mem_cons_of_mem _ (ih h)

theorem goodMap_lookup {m : RMap} {k r : Str} (hg : goodMap m)
    (h : dget? m k = some (some r)) :
    strStartsWith r dummyMarker = false ∧ strStartsWith r ['@'] = false := by
  have := hg _ (dget?_mem h)
  simp only [goodName, Bool.and_eq_true, Bool.not_eq_true'] at this
  exact this

theorem dummyMarker_eq : dummyMarker = 'A' :: "PKTOOL_DUMMY_".toList := rfl

theorem dummy_not_at {v : Str} (h : strStartsWith v dummyMarker = true) :
    strStartsWith v ['@'] = false := by
  rw [dummyMarker_eq] at h
  obtain ⟨v', rfl⟩ := strStartsWith_cons_head h
  exact strStartsWith_cons_ne (by decide)

theorem at_not_dummy {v : Str} (h : strStartsWith v ['@'] = true) :
    strStartsWith v dummyMarker = false := by
  obtain ⟨v', rfl⟩ := strStartsWith_cons_head h
  rw [dummyMarker_eq]
  exact strStartsWith_cons_ne (by decide)

theorem rewriteBare_at {m : RMap} {val : Str} (h : strStartsWith val ['@'] = true) :
    rewriteBare m val = .ok (val, false) := by
  simp [rewriteBare, at_not_dummy h]

/-- Evaluation of the attribute rewrite on a reference in at-form. -/
theorem rewriteRefValue_at (m : RMap) (ty d : Str) (hty : '/' ∉ ty) (hd : '/' ∉ d)
    (hdn : strStartsWith d dummyMarker = true) :
    rewriteRefValue m (('@' :: ty) ++ '/' :: d) =
      match dget? m d with
      | none => .error ()
      | some none => .ok (('@' :: ty) ++ '/' :: d, false)
      | some (some real) => .ok (('@' :: ty) ++ '/' :: real, true) := by
  have hat : strStartsWith (('@' :: ty) ++ '/' :: d) ['@'] = true := by
    simp [strStartsWith]
  have hsplit : splitSlash (('@' :: ty) ++ '/' :: d) = ('@' :: ty) :: [d] := by
    rw [splitSlash_append _ (by simpa using hty), splitSlash_no_slash hd]
  rw [rewriteRefValue, if_pos hat, hsplit]
  simp only [if_pos hdn]
  cases hval : dget? m d with
  | none => rfl
  | some o =>
      cases o with
      | none => simpa using rewriteBare_at hat
      | some real => rfl

/-- Evaluation of the attribute rewrite on a bare placeholder name. -/
theorem rewriteRefValue_bare (m : RMap) (d : Str)
    (hdn : strStartsWith d dummyMarker = true) :
    rewriteRefValue m d =
      match dget? m d with
      | none => .error ()
      | some none => .ok (d, false)
      | some (some real) => .ok (real, true) := by
  rw [rewriteRefValue, if_neg (by simp [dummy_not_at hdn])]
  rw [rewriteBare, if_pos hdn]

/-- Evaluation of the text rewrite on a reference in at-form. -/
theorem rewriteTextValue_at (m : RMap) (ty d : Str) (hty : '/' ∉ ty) (hd : '/' ∉ d)
    (hdn : strStartsWith d dummyMarker = true) :
    rewriteTextValue m (('@' :: ty) ++ '/' :: d) =
      match dget? m d with
      | none => .error ()
      | some none => .ok (('@' :: ty) ++ '/' :: d, false)
      | some (some real) => .ok (('@' :: ty) ++ '/' :: real, true) := by
  have hat : strStartsWith (('@' :: ty) ++ '/' :: d) ['@'] = true := by
    simp [strStartsWith]
  have hsplit : splitSlash (('@' :: ty) ++ '/' :: d) = ('@' :: ty) :: [d] := by
    rw [splitSlash_append _ (by simpa using hty), splitSlash_no_slash hd]
  rw [rewriteTextValue, if_pos hat, hsplit]
  simp only [if_pos hdn]

theorem rewriteBare_ok_false {m : RMap} {v v' : Str}
    (h : rewriteBare m v = .ok (v', false)) : v' = v := by
  unfold rewriteBare at h
  split at h
  · split at h <;> simp_all
  · simp_all

theorem rewriteRefValue_ok_false {m : RMap} {v v' : Str}
    (h : rewriteRefValue m v = .ok (v', false)) : v' = v := by
  unfold rewriteRefValue at h
  repeat' split at h
  all_goals first
    | exact rewriteBare_ok_false h
    | simp_all

theorem rewriteTextValue_ok_false {m : RMap} {v v' : Str}
    (h : rewriteTextValue m v = .ok (v', false)) : v' = v := by
  unfold rewriteTextValue at h
  repeat' split at h
  all_goals simp_all

theorem rewriteBare_ok_true {m : RMap} {v v' : Str}
    (h : rewriteBare m v = .ok (v', true)) :
    strStartsWith v dummyMarker = true ∧ dget? m v = some (some v') := by
  unfold rewriteBare at h
  repeat' split at h
  all_goals simp_all

theorem rewriteRefValue_ok_true {m : RMap} {v v' : Str}
    (h : rewriteRefValue m v = .ok (v', true)) :
    (∃ t n real, strStartsWith v ['@'] = true ∧
        (∃ rest, splitSlash v = t :: n :: rest) ∧
        strStartsWith n dummyMarker = true ∧ dget? m n = some (some real) ∧
        v' = t ++ '/' :: real)
    ∨ (strStartsWith v dummyMarker = true ∧ dget? m v = some (some v')) := by
  unfold rewriteRefValue at h
  split at h
  · rename_i hat
    split at h
    · rename_i t n rest heq
      split at h
      · rename_i hdn
        split at h
        · exact absurd h (by simp)
        · rw [rewriteBare_at hat] at h
          exact absurd h (by simp)
        · rename_i real hreal
          left
          refine ⟨t, n, real, hat, ⟨rest, heq⟩, hdn, hreal, ?_⟩
          simp only [Except.ok.injEq, Prod.mk.injEq] at h
          exact h.1.symm
      · rename_i hdn
        rw [rewriteBare_at hat] at h
        exact absurd h (by simp)
    · rw [rewriteBare_at hat] at h
      exact absurd h (by simp)
  · rename_i hat
    right
    exact rewriteBare_ok_true h

theorem rewriteTextValue_ok_true {m : RMap} {v v' : Str}
    (h : rewriteTextValue m v = .ok (v', true)) :
    ∃ t n real, strStartsWith v ['@'] = true ∧
      (∃ rest, splitSlash v = t :: n :: rest) ∧
      strStartsWith n dummyMarker = true ∧ dget? m n = some (some real) ∧
      v' = t ++ '/' :: real := by
  unfold rewriteTextValue at h
  split at h
  · rename_i hat
    split at h
    · rename_i t n rest heq
      split at h
      · rename_i hdn
        split at h
        · exact absurd h (by simp)
        · exact absurd h (by simp)
        · rename_i real hreal
          refine ⟨t, n, real, hat, ⟨rest, heq⟩, hdn, hreal, ?_⟩
          simp only [Except.ok.injEq, Prod.mk.injEq] at h
          exact h.1.symm
      · exact absurd h (by simp)
    · exact absurd h (by simp)
  · exact absurd h (by simp)

/-- The rewritten at-form value produced by a change has the shape
at-sign, first component, slash, resolved name; under `goodMap` neither
rewrite will touch it again. -/
theorem rewritten_at_untouched {m : RMap} {v v' : Str} (hg : goodMap m)
    (hat : strStartsWith v ['@'] = true)
    (t n real : Str) (rest : List Str)
    (heq : splitSlash v = t :: n :: rest)
    (hreal : dget? m n = some (some real))
    (hv' : v' = t ++ '/' :: real) :
    strStartsWith v' ['@'] = true ∧
    ∃ r1 rtail, splitSlash v' = t :: r1 :: rtail ∧
      strStartsWith r1 dummyMarker = false := by
  have htns : '/' ∉ t := splitSlash_head_no_slash heq
  have hrecon := splitSlash_recon heq
  rcases hrecon with ⟨hemp, _⟩ | ⟨r, hvr, _⟩
  · exact absurd hemp (by simp)
  · obtain ⟨v2, hv2⟩ := strStartsWith_cons_head hat
    have ht : ∃ t2, t = '@' :: t2 := by
      cases t with
      | nil =>
          rw [hvr] at hv2
          simp at hv2
      | cons a t2 =>
          rw [hvr] at hv2
          simp only [List.cons_append, List.cons.injEq] at hv2
          exact ⟨t2, by rw [hv2.1]⟩
    obtain ⟨t2, rfl⟩ := ht
    have hv'at : strStartsWith v' ['@'] = true := by
      rw [hv']
      simp [strStartsWith]
    have hsplit : splitSlash v' = ('@' :: t2) :: splitSlash real := by
      rw [hv']
      exact splitSlash_append _ htns
    have hgood := goodMap_lookup hg hreal
    cases hreals : splitSlash real with
    | nil => exact absurd hreals (splitSlash_ne_nil real)
    | cons r1 rtail =>
        refine ⟨hv'at, r1, rtail, by rw [hsplit, hreals], ?_⟩
        rcases splitSlash_recon hreals with ⟨_, hr1⟩ | ⟨rr, hrr, _⟩
        · rw [← hr1]
          exact hgood.1
        · by_contra hcon
          have h1 : strStartsWith r1 dummyMarker = true := by
            cases hsw : strStartsWith r1 dummyMarker
            · exact absurd hsw hcon
            · rfl
          have : strStartsWith real dummyMarker = true := by
            rw [hrr]
            exact strStartsWith_append_of h1
          rw [hgood.1] at this
          exact Bool.false_ne_true this

/-- Under `goodMap`, the attribute rewrite is stable: its output is never
rewritten again (and never raises). -/
theorem rewriteRefValue_stable {m : RMap} {v v' : Str} {ch : Bool} (hg : goodMap m)
    (h : rewriteRefValue m v = .ok (v', ch)) :
    rewriteRefValue m v' = .ok (v', false) := by
  cases ch with
  | false =>
      have hv := rewriteRefValue_ok_false h
      rw [hv]
      rw [hv] at h
      exact h
  | true =>
      rcases rewriteRefValue_ok_true h with
        ⟨t, n, real, hat, ⟨rest, heq⟩, hdn, hreal, hv'⟩ | ⟨hdum, hlook⟩
      · obtain ⟨hv'at, r1, rtail, hsplit', hr1⟩ :=
          rewritten_at_untouched hg hat t n real rest heq hreal hv'
        rw [rewriteRefValue, if_pos hv'at, hsplit']
        simp [hr1, rewriteBare_at hv'at]
      · have hgood := goodMap_lookup hg hlook
        rw [rewriteRefValue, if_neg (by simp [hgood.2])]
        rw [rewriteBare, if_neg (by simp [hgood.1])]

/-- Under `goodMap`, the text rewrite is stable as well. -/
theorem rewriteTextValue_stable {m : RMap} {v v' : Str} {ch : Bool} (hg : goodMap m)
    (h : rewriteTextValue m v = .ok (v', ch)) :
    rewriteTextValue m v' = .ok (v', false) := by
  cases ch with
  | false =>
      have hv := rewriteTextValue_ok_false h
      rw [hv]
      rw [hv] at h
      exact h
  | true =>
      obtain ⟨t, n, real, hat, ⟨rest, heq⟩, hdn, hreal, hv'⟩ :=
        rewriteTextValue_ok_true h
      obtain ⟨hv'at, r1, rtail, hsplit', hr1⟩ :=
        rewritten_at_untouched hg hat t n real rest heq hreal hv'
      rw [rewriteTextValue, if_pos hv'at, hsplit']
      simp [hr1]

/-! Lemmas about document processing (step 4). -/

theorem procAttrs_text_some {m : RMap} {isDraw : Bool} {attrs : List (Str × Str)}
    {t : Str} {out : List (Str × Str) × Option Str × Nat × Bool}
    (h : procAttrs m isDraw attrs (some t) = .ok out) : out.2.1 = some t := by
  induction attrs generalizing out with
  | nil =>
      rw [procAttrs] at h
      cases h
      rfl
  | cons av rest ih =>
      rcases av with ⟨a, v⟩
      rw [procAttrs] at h
      split at h
      · exact absurd h (by simp)
      · simp only [Option.isNone_some, Bool.and_false, Bool.false_eq_true, if_false] at h
        split at h
        · exact absurd h (by simp)
        · rename_i rest' text2 u c heq
          cases h
          simpa using ih heq

theorem procAttrs_changed_false {m : RMap} {isDraw : Bool} {attrs attrs' : List (Str × Str)}
    {text text' : Option Str} {u : Nat}
    (h : procAttrs m isDraw attrs text = .ok (attrs', text', u, false)) : u = 0 := by
  induction attrs generalizing attrs' text text' u with
  | nil =>
      rw [procAttrs] at h
      cases h
      rfl
  | cons av rest ih =>
      rcases av with ⟨a, v⟩
      rw [procAttrs] at h
      split at h
      · exact absurd h (by simp)
      · rename_i v' ch hrw
        split at h
        · exact absurd h (by simp)
        · rename_i rest' text2 u2 c2 heq
          simp only [Except.ok.injEq, Prod.mk.injEq] at h
          obtain ⟨_, _, hu, hc⟩ := h
          rcases Bool.or_eq_false_iff.mp hc with ⟨hch, hc2⟩
          subst hch
          simp only [Bool.false_eq_true, if_false, Nat.zero_add] at hu
          have := ih (heq.trans (by rw [hc2]))
          omega

theorem procAttrs_stable {m : RMap} {isDraw : Bool} {attrs attrs' : List (Str × Str)}
    {text text1 : Option Str} {u : Nat} {c : Bool} (hg : goodMap m)
    (h : procAttrs m isDraw attrs text = .ok (attrs', text1, u, c)) :
    ∀ tx : Option Str, tx.isNone = false →
      procAttrs m isDraw attrs' tx = .ok (attrs', tx, 0, false) := by
  induction attrs generalizing attrs' text text1 u c with
  | nil =>
      rw [procAttrs] at h
      cases h
      intro tx _
      rw [procAttrs]
  | cons av rest ih =>
      rcases av with ⟨a, v⟩
      rw [procAttrs] at h
      split at h
      · exact absurd h (by simp)
      · rename_i v' ch hrw
        split at h
        · exact absurd h (by simp)
        · rename_i rest' text2 u2 c2 heq
          simp only [Except.ok.injEq, Prod.mk.injEq] at h
          obtain ⟨ha, _, _, _⟩ := h
          intro tx htx
          have hrw' := rewriteRefValue_stable hg hrw
          have hrec := ih heq tx htx
          rw [← ha]
          simp [procAttrs, hrw', hrec, htx]

theorem procAttrs_none_stable {m : RMap} {isDraw : Bool} {attrs attrs' : List (Str × Str)}
    {u : Nat} {c : Bool} (hg : goodMap m)
    (h : procAttrs m isDraw attrs none = .ok (attrs', none, u, c)) :
    procAttrs m isDraw attrs' none = .ok (attrs', none, 0, false) := by
  induction attrs generalizing attrs' u c with
  | nil =>
      rw [procAttrs] at h
      cases h
      rw [procAttrs]
  | cons av rest ih =>
      rcases av with ⟨a, v⟩
      rw [procAttrs] at h
      split at h
      · exact absurd h (by simp)
      · rename_i v' ch hrw
        split at h
        · exact absurd h (by simp)
        · rename_i rest' text2 u2 c2 heq
          simp only [Except.ok.injEq, Prod.mk.injEq] at h
          obtain ⟨ha, htext, _, _⟩ := h
          cases hcond : (isDraw && decide (a = "name".toList)) with
          | true =>
              rw [hcond] at heq
              simp only [Option.isNone_none, Bool.and_true, if_true] at heq
              have := procAttrs_text_some heq
              rw [htext] at this
              exact absurd this (by simp)
          | false =>
              rw [hcond] at heq
              simp only [Bool.false_and, Bool.false_eq_true, if_false] at heq
              have hrec := ih (heq.trans (by rw [htext]))
              have hrw' := rewriteRefValue_stable hg hrw
              have hif : (if (isDraw && decide (a = "name".toList)
                    && Option.isNone (none : Option Str)) = true
                  then some nullDecodedDrawableColor else (none : Option Str)) = none := by
                simp only [Option.isNone_none, Bool.and_true, hcond,
                  Bool.false_eq_true, if_false]
              rw [← ha, procAttrs, hrw', hif, hrec]
              rfl

theorem procEl_stable {m : RMap} {isDraw : Bool} {el el' : XmlEl} {u : Nat} {c : Bool}
    (hg : goodMap m) (h : procEl m isDraw el = .ok (el', u, c)) :
    procEl m isDraw el' = .ok (el', 0, false) := by
  rw [procEl] at h
  split at h
  · exact absurd h (by simp)
  · rename_i attrs' text1 u1 c1 heq
    split at h
    · -- text after the attribute loop is none
      cases h
      cases hel : el.text with
      | some t =>
          rw [hel] at heq
          exact absurd (procAttrs_text_some heq) (by simp)
      | none =>
          rw [hel] at heq
          have h1 := procAttrs_none_stable hg heq
          simp [procEl, h1]
    · rename_i t
      split at h
      · exact absurd h (by simp)
      · rename_i t' ch hrw
        cases h
        have h1 := procAttrs_stable hg heq (some t') (by simp)
        have h2 := rewriteTextValue_stable hg hrw
        simp [procEl, h1, h2]

theorem procEl_changed_false {m : RMap} {isDraw : Bool} {el el' : XmlEl} {u : Nat}
    (h : procEl m isDraw el = .ok (el', u, false)) : u = 0 := by
  rw [procEl] at h
  split at h
  · exact absurd h (by simp)
  · rename_i attrs' text1 u1 c1 heq
    split at h
    · cases h
      exact procAttrs_changed_false heq
    · rename_i t
      split at h
      · exact absurd h (by simp)
      · rename_i t' ch hrw
        simp only [Except.ok.injEq, Prod.mk.injEq] at h
        obtain ⟨_, hu, hc⟩ := h
        rcases Bool.or_eq_false_iff.mp hc with ⟨hc1, hch⟩
        have hu1 : u1 = 0 := procAttrs_changed_false (by rw [heq, hc1])
        subst hch
        simp only [Bool.false_eq_true, if_false, Nat.add_zero] at hu
        omega

theorem procEls_changed_false {m : RMap} {isDraw : Bool} {els els' : List XmlEl} {u : Nat}
    (h : procEls m isDraw els = .ok (els', u, false)) : u = 0 := by
  induction els generalizing els' u with
  | nil =>
      rw [procEls] at h
      cases h
      rfl
  | cons el rest ih =>
      rw [procEls] at h
      split at h
      · exact absurd h (by simp)
      · rename_i el' u1 c1 heq1
        split at h
        · exact absurd h (by simp)
        · rename_i rest' u2 c2 heq2
          simp only [Except.ok.injEq, Prod.mk.injEq] at h
          obtain ⟨_, hu, hc⟩ := h
          rcases Bool.or_eq_false_iff.mp hc with ⟨hc1, hc2⟩
          have hu1 : u1 = 0 := procEl_changed_false (by rw [heq1, hc1])
          have hu2 : u2 = 0 := ih (by rw [heq2, hc2])
          omega

theorem procEls_stable {m : RMap} {isDraw : Bool} {els els' : List XmlEl} {u : Nat} {c : Bool}
    (hg : goodMap m) (h : procEls m isDraw els = .ok (els', u, c)) :
    procEls m isDraw els' = .ok (els', 0, false) := by
  induction els generalizing els' u c with
  | nil =>
      rw [procEls] at h
      cases h
      rw [procEls]
  | cons el rest ih =>
      rw [procEls] at h
      split at h
      · exact absurd h (by simp)
      · rename_i el' u1 c1 heq1
        split at h
        · exact absurd h (by simp)
        · rename_i rest' u2 c2 heq2
          simp only [Except.ok.injEq, Prod.mk.injEq] at h
          obtain ⟨hels, _, _⟩ := h
          have h1 := procEl_stable hg heq1
          have h2 := ih heq2
          rw [← hels]
          simp [procEls, h1, h2]

theorem processDoc_changed_false {m : RMap} {doc doc' : XmlDoc} {u : Nat}
    (h : processDoc m doc = .ok (doc', u, false)) : u = 0 := by
  rw [processDoc] at h
  split at h
  · exact absurd h (by simp)
  · rename_i els' u0 c0 heq
    simp only [Except.ok.injEq, Prod.mk.injEq] at h
    obtain ⟨_, hu, hc⟩ := h
    exact hu ▸ procEls_changed_false (by rw [heq, hc])

theorem processDoc_stable {m : RMap} {doc doc' : XmlDoc} {u : Nat} {c : Bool}
    (hg : goodMap m) (h : processDoc m doc = .ok (doc', u, c)) :
    processDoc m doc' = .ok (doc', 0, false) := by
  rw [processDoc] at h
  split at h
  · exact absurd h (by simp)
  · rename_i els' u0 c0 heq
    simp only [Except.ok.injEq, Prod.mk.injEq] at h
    obtain ⟨hdoc, _, _⟩ := h
    rw [← hdoc, processDoc]
    simp only
    rw [procEls_stable hg heq]

theorem step4File_stable {m : RMap} {f f' : ResFile} {u : Nat} (hg : goodMap m)
    (h : step4File m f = .ok (f', u)) : step4File m f' = .ok (f', 0) := by
  cases f with
  | error e =>
      rw [step4File] at h
      cases h
      rw [step4File]
  | ok doc =>
      rw [step4File] at h
      split at h
      · exact absurd h (by simp)
      · rename_i doc' u0 c heq
        cases h
        cases c with
        | true =>
            have hd : (if true = true then doc' else doc) = doc' := if_pos rfl
            have h1 := processDoc_stable hg heq
            rw [hd, step4File, h1]
            rfl
        | false =>
            have hd : (if false = true then doc' else doc) = doc := if_neg (by simp)
            have hu := processDoc_changed_false heq
            rw [hd, step4File, heq, hu]
            rfl

theorem step4_stable {m : RMap} {files files' : List ResFile} {u : Nat} (hg : goodMap m)
    (h : step4 m files = .ok (files', u)) : step4 m files' = .ok (files', 0) := by
  induction files generalizing files' u with
  | nil =>
      rw [step4] at h
      cases h
      rw [step4]
  | cons f rest ih =>
      rw [step4] at h
      split at h
      · exact absurd h (by simp)
      · rename_i f' u1 heq1
        split at h
        · exact absurd h (by simp)
        · rename_i rest' u2 heq2
          cases h
          rw [step4, step4File_stable hg heq1]
          simp only
          rw [ih heq2]

/-! Lemmas about step 2 of the resolver: the scan over split tables. -/

theorem lastName_cons (n : Str) (l : List Str) :
    lastName (n :: l) = some ((lastName l).getD n) := by
  induction l generalizing n with
  | nil => rfl
  | cons x l' ih =>
      have h1 : lastName (n :: x :: l') = lastName (x :: l') := rfl
      rw [h1, ih x, Option.getD_some]

theorem lastName_eq_none {l : List Str} (h : lastName l = none) : l = [] := by
  cases l with
  | nil => rfl
  | cons n l' =>
      rw [lastName_cons] at h
      exact absurd h (by simp)

theorem lastName_append (a : List Str) {b : List Str} (hb : b ≠ []) :
    lastName (a ++ b) = lastName b := by
  induction a with
  | nil => rfl
  | cons x a' ih =>
      rw [List.cons_append]
      cases hab : a' ++ b with
      | nil => exact absurd (List.append_eq_nil.mp hab).2 hb
      | cons y ys =>
          have h1 : lastName (x :: y :: ys) = lastName (y :: ys) := rfl
          rw [h1, ← hab]
          exact ih

theorem step2_entries_last (idMap : Dict Str) (d : Str) (entries : List PubEntry) :
    ∀ acc : RMap × Nat,
      dget? (entries.foldl (step2Entry idMap) acc).1 d =
        match lastName (entryMatches idMap d entries) with
        | some n => some (some n)
        | none => dget? acc.1 d := by
  induction entries with
  | nil => intro acc; rfl
  | cons e rest ih =>
      intro acc
      rw [List.foldl_cons]
      rcases e with ⟨ename, eid⟩
      rcases ename with _ | n
      · -- no name attribute: entry skipped by both sides
        have h1 : step2Entry idMap acc ⟨none, eid⟩ = acc := rfl
        have h2 : entryMatches idMap d (⟨none, eid⟩ :: rest) = entryMatches idMap d rest := by
          simp [entryMatches, List.filterMap_cons]
        rw [h1, h2]
        exact ih acc
      · rcases eid with _ | i
        · have h1 : step2Entry idMap acc ⟨some n, none⟩ = acc := rfl
          have h2 : entryMatches idMap d (⟨some n, none⟩ :: rest) =
              entryMatches idMap d rest := by
            simp [entryMatches, List.filterMap_cons]
          rw [h1, h2]
          exact ih acc
        · cases hdi : dget? idMap i with
          | none =>
              have h1 : step2Entry idMap acc ⟨some n, some i⟩ = acc := by
                simp [step2Entry, hdi]
              have h2 : entryMatches idMap d (⟨some n, some i⟩ :: rest) =
                  entryMatches idMap d rest := by
                simp [entryMatches, List.filterMap_cons, hdi]
              rw [h1, h2]
              exact ih acc
          | some dn =>
              by_cases hdn : dn = d
              · have hdi' : dget? idMap i = some d := by rw [hdi, hdn]
                have h1 : step2Entry idMap acc ⟨some n, some i⟩ =
                    (dset acc.1 d (some n), acc.2 + 1) := by
                  simp [step2Entry, hdi']
                have h2 : entryMatches idMap d (⟨some n, some i⟩ :: rest) =
                    n :: entryMatches idMap d rest := by
                  simp [entryMatches, List.filterMap_cons, hdi']
                rw [h1, h2, ih, lastName_cons]
                cases hl : lastName (entryMatches idMap d rest) with
                | some x => simp
                | none => simp [dget?_dset_self]
              · have h1 : step2Entry idMap acc ⟨some n, some i⟩ =
                    (dset acc.1 dn (some n), acc.2 + 1) := by
                  simp [step2Entry, hdi]
                have h2 : entryMatches idMap d (⟨some n, some i⟩ :: rest) =
                    entryMatches idMap d rest := by
                  simp [entryMatches, List.filterMap_cons, hdi, hdn]
                rw [h1, h2, ih]
                cases hl : lastName (entryMatches idMap d rest) with
                | some x => rfl
                | none => simp [dget?_dset_ne _ _ _ _ (fun hh => hdn hh.symm)]

theorem step2_last (idMap : Dict Str) (d : Str) (splits : List (Option (List PubEntry))) :
    ∀ acc : RMap × Nat,
      dget? (splits.foldl
          (fun acc split =>
            match split with
            | none => acc
            | some entries => entries.foldl (step2Entry idMap) acc) acc).1 d =
        match lastName (matchingNames idMap d splits) with
        | some n => some (some n)
        | none => dget? acc.1 d := by
  induction splits with
  | nil => intro acc; rfl
  | cons s rest ih =>
      intro acc
      rw [List.foldl_cons]
      cases s with
      | none =>
          rw [matchingNames]
          exact ih acc
      | some entries =>
          rw [matchingNames]
          have hstep := ih (entries.foldl (step2Entry idMap) acc)
          rw [hstep]
          cases hl : lastName (matchingNames idMap d rest) with
          | some x =>
              have hne : matchingNames idMap d rest ≠ [] := by
                intro hh
                rw [hh] at hl
                exact absurd hl (by simp [lastName])
              rw [lastName_append _ hne, hl]
          | none =>
              rw [lastName_eq_none hl, List.append_nil]
              rw [step2_entries_last idMap d entries acc]

/-! Error propagation in step 4: an uncaught lookup failure aborts the pass,
while parse failures are skipped. -/

theorem procAttrs_error_of_mem {m : RMap} {isDraw : Bool} {attrs : List (Str × Str)}
    {a v : Str} (hmem : (a, v) ∈ attrs) (herr : rewriteRefValue m v = .error ()) :
    ∀ text, procAttrs m isDraw attrs text = .error () := by
  induction attrs with
  | nil => cases hmem
  | cons av rest ih =>
      intro text
      rcases av with ⟨a0, v0⟩
      rcases List.mem_cons.mp hmem with hEq | hmem'
      · injection hEq with h1 h2
        subst h1
        subst h2
        rw [procAttrs, herr]
      · cases hrw : rewriteRefValue m v0 with
        | error e =>
            cases e
            rw [procAttrs, hrw]
        | ok pr =>
            rcases pr with ⟨v0', ch0⟩
            rw [procAttrs, hrw, ih hmem' _]

theorem procEl_error_of_attr {m : RMap} {isDraw : Bool} {el : XmlEl}
    {a v : Str} (hmem : (a, v) ∈ el.attrib) (herr : rewriteRefValue m v = .error ()) :
    procEl m isDraw el = .error () := by
  rw [procEl, procAttrs_error_of_mem hmem herr el.text]

theorem procEls_error_of_mem {m : RMap} {isDraw : Bool} {els : List XmlEl} {el : XmlEl}
    (hmem : el ∈ els) (herr : procEl m isDraw el = .error ()) :
    procEls m isDraw els = .error () := by
  induction els with
  | nil => cases hmem
  | cons e rest ih =>
      rcases List.mem_cons.mp hmem with hEq | hmem'
      · subst hEq
        rw [procEls, herr]
      · cases he : procEl m isDraw e with
        | error u =>
            cases u
            rw [procEls, he]
        | ok pr =>
            rcases pr with ⟨e', u1, c1⟩
            rw [procEls, he, ih hmem']

theorem processDoc_error_of_attr {m : RMap} {doc : XmlDoc} {el : XmlEl} {a v : Str}
    (hel : el ∈ doc.els) (hmem : (a, v) ∈ el.attrib)
    (herr : rewriteRefValue m v = .error ()) :
    processDoc m doc = .error () := by
  rw [processDoc, procEls_error_of_mem hel (procEl_error_of_attr hmem herr)]

theorem step4_error_of_mem {m : RMap} {files : List ResFile} {doc : XmlDoc}
    (hmem : Except.ok doc ∈ files) (herr : processDoc m doc = .error ()) :
    step4 m files = .error () := by
  induction files with
  | nil => cases hmem
  | cons f rest ih =>
      rcases List.mem_cons.mp hmem with hEq | hmem'
      · subst hEq
        rw [step4, step4File, herr]
      · cases hf : step4File m f with
        | error u =>
            cases u
            rw [step4, hf]
        | ok pr =>
            rcases pr with ⟨f', u1⟩
            rw [step4, hf, ih hmem']

theorem step4_ok_of_all {m : RMap} {files : List ResFile}
    (h : ∀ doc : XmlDoc, Except.ok doc ∈ files → ∃ r, processDoc m doc = .ok r) :
    ∃ out, step4 m files = .ok out := by
  induction files with
  | nil => exact ⟨([], 0), rfl⟩
  | cons f rest ih =>
      obtain ⟨⟨outs, outn⟩, hout⟩ := ih (fun doc hm => h doc (List.mem_cons_of_mem f hm))
      cases f with
      | error e =>
          cases e
          refine ⟨(Except.error () :: outs, 0 + outn), ?_⟩
          rw [step4, step4File, hout]
      | ok doc =>
          obtain ⟨⟨doc', u, c⟩, hdoc⟩ := h doc (List.mem_cons_self _ _)
          refine ⟨(Except.ok (if c then doc' else doc) :: outs, u + outn), ?_⟩
          rw [step4, step4File, hdoc, hout]

/-! Lemmas about the duplicate style filter. -/

theorem filterStyleItems_ok {items : List ItemEl} {seen : List Str}
    {kept : List ItemEl} {k : Nat}
    (h : filterStyleItems items seen = .ok (kept, k)) :
    kept = keepFirstOccurrences seen items ∧ kept.length + k = items.length := by
  induction items generalizing seen kept k with
  | nil =>
      rw [filterStyleItems] at h
      cases h
      exact ⟨rfl, rfl⟩
  | cons it rest ih =>
      rw [filterStyleItems] at h
      split at h
      · rename_i n hn
        split at h
        · rename_i hmem
          split at h
          · exact absurd h (by simp)
          · rename_i r k0 hrec
            cases h
            obtain ⟨h1, h2⟩ := ih hrec
            refine ⟨?_, ?_⟩
            · rw [h1]
              simp [keepFirstOccurrences, hn, hmem]
            · simp only [List.length_cons]
              omega
        · rename_i hmem
          split at h
          · exact absurd h (by simp)
          · rename_i r k0 hrec
            cases h
            obtain ⟨h1, h2⟩ := ih hrec
            refine ⟨?_, ?_⟩
            · rw [h1]
              simp [keepFirstOccurrences, hn, hmem]
            · simp only [List.length_cons]
              omega
      · exact absurd h (by simp)

theorem keepFirst_names_nodup (items : List ItemEl) : ∀ seen : List Str,
    ((keepFirstOccurrences seen items).filterMap (fun it => it.name)).Nodup
    ∧ ∀ n ∈ (keepFirstOccurrences seen items).filterMap (fun it => it.name), n ∉ seen := by
  induction items with
  | nil =>
      intro seen
      simp [keepFirstOccurrences]
  | cons it rest ih =>
      intro seen
      cases hn : it.name with
      | none =>
          have h1 : keepFirstOccurrences seen (it :: rest) =
              it :: keepFirstOccurrences seen rest := by
            simp [keepFirstOccurrences, hn]
          rw [h1]
          have h2 : (it :: keepFirstOccurrences seen rest).filterMap (fun it => it.name) =
              (keepFirstOccurrences seen rest).filterMap (fun it => it.name) := by
            simp [List.filterMap_cons, hn]
          rw [h2]
          exact ih seen
      | some n =>
          by_cases hmem : n ∈ seen
          · have h1 : keepFirstOccurrences seen (it :: rest) =
                keepFirstOccurrences seen rest := by
              simp [keepFirstOccurrences, hn, hmem]
            rw [h1]
            exact ih seen
          · have h1 : keepFirstOccurrences seen (it :: rest) =
                it :: keepFirstOccurrences (seen ++ [n]) rest := by
              simp [keepFirstOccurrences, hn, hmem]
            have h2 : (it :: keepFirstOccurrences (seen ++ [n]) rest).filterMap
                  (fun it => it.name) =
                n :: (keepFirstOccurrences (seen ++ [n]) rest).filterMap
                  (fun it => it.name) := by
              simp [List.filterMap_cons, hn]
            rw [h1, h2]
            obtain ⟨hnodup, hdisj⟩ := ih (seen ++ [n])
            constructor
            · refine List.nodup_cons.mpr ⟨?_, hnodup⟩
              intro hcon
              have := hdisj n hcon
              simp at this
            · intro x hx
              rcases List.mem_cons.mp hx with rfl | hx'
              · exact hmem
              · intro hxs
                exact hdisj x hx' (List.mem_append_left _ hxs)

theorem keepFirst_length_le (items : List ItemEl) : ∀ seen : List Str,
    (keepFirstOccurrences seen items).length ≤ items.length := by
  induction items with
  | nil => intro seen; simp [keepFirstOccurrences]
  | cons it rest ih =>
      intro seen
      cases hn : it.name with
      | none =>
          have h1 : keepFirstOccurrences seen (it :: rest) =
              it :: keepFirstOccurrences seen rest := by
            simp [keepFirstOccurrences, hn]
          rw [h1]
          simpa using ih seen
      | some n =>
          by_cases hmem : n ∈ seen
          · have h1 : keepFirstOccurrences seen (it :: rest) =
                keepFirstOccurrences seen rest := by
              simp [keepFirstOccurrences, hn, hmem]
            rw [h1]
            exact Nat.le_succ_of_le (ih seen)
          · have h1 : keepFirstOccurrences seen (it :: rest) =
                it :: keepFirstOccurrences (seen ++ [n]) rest := by
              simp [keepFirstOccurrences, hn, hmem]
            rw [h1]
            simpa using ih (seen ++ [n])

theorem keepFirst_length_eq (items : List ItemEl) : ∀ seen : List Str,
    (keepFirstOccurrences seen items).length = items.length →
    keepFirstOccurrences seen items = items := by
  induction items with
  | nil => intro seen _; rfl
  | cons it rest ih =>
      intro seen hlen
      cases hn : it.name with
      | none =>
          have h1 : keepFirstOccurrences seen (it :: rest) =
              it :: keepFirstOccurrences seen rest := by
            simp [keepFirstOccurrences, hn]
          rw [h1] at hlen ⊢
          simp only [List.length_cons, Nat.add_right_cancel_iff] at hlen
          rw [ih seen hlen]
      | some n =>
          by_cases hmem : n ∈ seen
          · have h1 : keepFirstOccurrences seen (it :: rest) =
                keepFirstOccurrences seen rest := by
              simp [keepFirstOccurrences, hn, hmem]
            rw [h1] at hlen
            have := keepFirst_length_le rest seen
            simp [List.length_cons] at hlen
            omega
          · have h1 : keepFirstOccurrences seen (it :: rest) =
                it :: keepFirstOccurrences (seen ++ [n]) rest := by
              simp [keepFirstOccurrences, hn, hmem]
            rw [h1] at hlen ⊢
            simp only [List.length_cons, Nat.add_right_cancel_iff] at hlen
            rw [ih (seen ++ [n]) hlen]

theorem scanStyles_ok {styles newStyles : List StyleEl} {total : Nat}
    (h : scanStyles styles = .ok (newStyles, total)) :
    newStyles = styles.map (fun st => { st with items := keepFirstOccurrences [] st.items })
    ∧ total + (styles.map (fun st => (keepFirstOccurrences [] st.items).length)).sum
        = (styles.map (fun st => st.items.length)).sum := by
  induction styles generalizing newStyles total with
  | nil =>
      rw [scanStyles] at h
      cases h
      exact ⟨rfl, rfl⟩
  | cons st rest ih =>
      rw [scanStyles] at h
      split at h
      · exact absurd h (by simp)
      · rename_i kept k hfs
        split at h
        · exact absurd h (by simp)
        · rename_i rest' t0 hsc
          cases h
          obtain ⟨hk, hlen⟩ := filterStyleItems_ok hfs
          obtain ⟨h1, h2⟩ := ih hsc
          constructor
          · rw [List.map_cons, ← h1, hk]
          · simp only [List.map_cons, List.sum_cons]
            have hk' : kept.length = (keepFirstOccurrences [] st.items).length := by
              rw [hk]
            omega

theorem sum_keepFirst_le (styles : List StyleEl) :
    (styles.map (fun st => (keepFirstOccurrences [] st.items).length)).sum
      ≤ (styles.map (fun st => st.items.length)).sum := by
  induction styles with
  | nil => simp
  | cons st rest ih =>
      simp only [List.map_cons, List.sum_cons]
      have := keepFirst_length_le st.items []
      omega

theorem map_keepFirst_eq_of_sum (styles : List StyleEl)
    (hsum : (styles.map (fun st => (keepFirstOccurrences [] st.items).length)).sum
          = (styles.map (fun st => st.items.length)).sum) :
    styles.map (fun st => { st with items := keepFirstOccurrences [] st.items }) = styles := by
  induction styles with
  | nil => rfl
  | cons st rest ih =>
      simp only [List.map_cons, List.sum_cons] at hsum
      have hle1 := keepFirst_length_le st.items []
      have hle2 := sum_keepFirst_le rest
      have heq1 : (keepFirstOccurrences [] st.items).length = st.items.length := by omega
      have heq2 := ih (by omega)
      rw [List.map_cons, heq2, keepFirst_length_eq st.items [] heq1]

/-! Remaining support lemmas. -/

theorem procAttrs_forall2 {m : RMap} {isDraw : Bool} {attrs : List (Str × Str)}
    {text : Option Str} {out : List (Str × Str) × Option Str × Nat × Bool}
    (h : procAttrs m isDraw attrs text = .ok out) :
    List.Forall₂
      (fun p q : Str × Str => p.1 = q.1 ∧ ∃ ch, rewriteRefValue m p.2 = .ok (q.2, ch))
      attrs out.1 := by
  induction attrs generalizing text out with
  | nil =>
      rw [procAttrs] at h
      cases h
      exact List.Forall₂.nil
  | cons av rest ih =>
      rcases av with ⟨a, v⟩
      rw [procAttrs] at h
      split at h
      · exact absurd h (by simp)
      · rename_i v' ch hrw
        split at h
        · exact absurd h (by simp)
        · rename_i rest' text2 u c heq
          cases h
          exact List.Forall₂.cons ⟨rfl, ⟨ch, hrw⟩⟩ (ih heq)

theorem append_ne_of_ne {ns a b : Str} (h : a ≠ b) : ns ++ a ≠ ns ++ b :=
  fun hh => h (List.append_cancel_left hh)

theorem dget?_eq_none_of_not_dmem {α : Type} {m : Dict α} {k : Str}
    (h : dmem m k = false) : dget? m k = none := by
  rw [dmem] at h
  cases hd : dget? m k with
  | none => rfl
  | some v =>
      rw [hd] at h
      simp at h

/-!
Claim theorems.  Each theorem settles one claim of the specification
against the embedded code.
-/

/-- C1, counterexample: the base table records one placeholder, and two
splits both declare a true name for its id; the resolver keeps the name of
the split scanned SECOND, not the first, because the step 2 assignment
(line 476 of the source) overwrites the resolution unconditionally.  This
refutes the claimed first-writer-wins tie-break. -/
theorem resolverFirstWinsCex :
    dget? (step2 (step1 [⟨some "APKTOOL_DUMMY_1".toList, some "0x7f010001".toList⟩]).1
        (step1 [⟨some "APKTOOL_DUMMY_1".toList, some "0x7f010001".toList⟩]).2
        [some [⟨some "first_name".toList, some "0x7f010001".toList⟩],
         some [⟨some "second_name".toList, some "0x7f010001".toList⟩]]).1
      "APKTOOL_DUMMY_1".toList = some (some "second_name".toList)
    ∧ "second_name".toList ≠ "first_name".toList := by
  refine ⟨by decide, by decide⟩

/-- C1, amended: for every placeholder recorded from the base table, the
resolution used in the merged result is the name of the LAST entry, in split
scan order, whose recorded id maps to that placeholder; each later matching
entry overwrites the earlier resolution, deterministically for a fixed input
ordering, and a placeholder with no matching entry keeps its prior state. -/
theorem resolverLastSplitWins (idMap : Dict Str) (d2 : RMap)
    (splits : List (Option (List PubEntry))) (d : Str) :
    dget? (step2 idMap d2 splits).1 d =
      match lastName (matchingNames idMap d splits) with
      | some n => some (some n)
      | none => dget? d2 d := by
  rw [step2]
  exact step2_last idMap d splits (d2, 0)

/-- C3, code-bug evidence: a drawables.xml whose only defect is an item with
a name attribute and no text has the default colour substituted on the
in-memory document, but the changed flag stays false (the fix at lines
527-530 never sets it), so step 4 does not write the corrected document:
the on-disk tree after the pass still holds the uncorrected document. -/
theorem drawablesFixNotPersisted :
    processDoc [] ⟨"drawables.xml".toList, [⟨[("name".toList, "x".toList)], none⟩]⟩
      = .ok (⟨"drawables.xml".toList,
          [⟨[("name".toList, "x".toList)], some nullDecodedDrawableColor⟩]⟩, 0, false)
    ∧ step4 [] [.ok ⟨"drawables.xml".toList, [⟨[("name".toList, "x".toList)], none⟩]⟩]
      = .ok ([.ok ⟨"drawables.xml".toList, [⟨[("name".toList, "x".toList)], none⟩]⟩], 0) :=
  ⟨rfl, rfl⟩

/-- C5: when the relevant table is absent, the optional stages are safe
no-ops that mutate nothing: the resolver returns immediately with the tree
unchanged and zero counts when the base has no public.xml, and the style
filter returns immediately when there is no styles.xml. -/
theorem absentTablesNoOp (resFiles : List ResFile)
    (splits : List (Option (List PubEntry))) :
    fixPublicResourceIDs ⟨none, resFiles⟩ splits = .ok (⟨none, resFiles⟩, 0, 0)
    ∧ hackRemoveDuplicateStyleEntries none = .ok (none, 0, false) :=
  ⟨rfl, rfl⟩

/-- C9: when the merged tree has no string-resource table, the ampersand
fix-up is not a no-op: rawREReplace aborts the pipeline with an error
(line 643); when the file exists its contents are rewritten in place. -/
theorem missingStringsAborts :
    fixImproperlyEscapedAmpersands none =
      .error ("Error: Failed to find file at res/values/strings.xml for pattern replacement").toList
    ∧ ∀ contents : Str, fixImproperlyEscapedAmpersands (some contents) = .ok (ampFix contents) :=
  ⟨rfl, fun _ => rfl⟩

/-- C2, counterexample: on a manifest whose application element carries the
split-required flag but no extract-native-libraries attribute, patching
leaves the extract-native-libraries attribute ABSENT: the source only sets
it when already present (lines 615-616), refuting the claim that it is
forced to true even when not previously present. -/
theorem disableSplittingExtractCex :
    dget? (disableApkSplitting "NS0".toList
        ⟨"application".toList, [("NS0".toList ++ "isSplitRequired".toList, "true".toList)]⟩
        [⟨"meta-data".toList,
          [("NS0".toList ++ "name".toList, "com.android.vending.splits".toList)]⟩]).1.attrib
      ("NS0".toList ++ "extractNativeLibs".toList) = none := by decide

/-- C2, amended: after DisableSplitLoading runs on the application element,
the split-required attribute is absent; the extract-native-libraries
attribute is "true" when it was previously present and stays absent
otherwise; and every meta-data child named with one of the two
split-signaling keys is removed. -/
theorem disableSplittingAmended (ns : Str) (app : MEl) (children : List MEl) :
    dmem (disableApkSplitting ns app children).1.attrib
        (ns ++ "isSplitRequired".toList) = false
    ∧ dget? (disableApkSplitting ns app children).1.attrib (ns ++ "extractNativeLibs".toList)
        = (if dmem app.attrib (ns ++ "extractNativeLibs".toList) then some "true".toList
           else none)
    ∧ ∀ c ∈ (disableApkSplitting ns app children).2, isSplitsMetaData ns c = false := by
  have hkey : (ns ++ "extractNativeLibs".toList) ≠ (ns ++ "isSplitRequired".toList) :=
    append_ne_of_ne (by decide)
  rw [disableApkSplitting]
  dsimp only
  set a1 := if dmem app.attrib (ns ++ "isSplitRequired".toList)
      then ddel app.attrib (ns ++ "isSplitRequired".toList) else app.attrib with ha1def
  set a2 := if dmem a1 (ns ++ "extractNativeLibs".toList)
      then dset a1 (ns ++ "extractNativeLibs".toList) "true".toList else a1 with ha2def
  have ha1k1 : dget? a1 (ns ++ "isSplitRequired".toList) = none := by
    rw [ha1def]
    cases hmem : dmem app.attrib (ns ++ "isSplitRequired".toList) with
    | true => rw [if_pos rfl, dget?_ddel_self]
    | false =>
        rw [if_neg (by simp)]
        exact dget?_eq_none_of_not_dmem hmem
  have ha1k2 : dget? a1 (ns ++ "extractNativeLibs".toList)
      = dget? app.attrib (ns ++ "extractNativeLibs".toList) := by
    rw [ha1def]
    cases hmem : dmem app.attrib (ns ++ "isSplitRequired".toList) with
    | true => rw [if_pos rfl, dget?_ddel_ne _ _ _ hkey]
    | false => rw [if_neg (by simp)]
  have ha2k1 : dget? a2 (ns ++ "isSplitRequired".toList) = none := by
    rw [ha2def]
    cases hma : dmem a1 (ns ++ "extractNativeLibs".toList) with
    | true => rw [if_pos rfl, dget?_dset_ne _ _ _ _ (Ne.symm hkey), ha1k1]
    | false =>
        rw [if_neg (by simp)]
        exact ha1k1
  have ha2k2 : dget? a2 (ns ++ "extractNativeLibs".toList)
      = (if dmem app.attrib (ns ++ "extractNativeLibs".toList) then some "true".toList
         else none) := by
    rw [ha2def]
    have hm12 : dmem a1 (ns ++ "extractNativeLibs".toList)
        = dmem app.attrib (ns ++ "extractNativeLibs".toList) := by
      rw [dmem, ha1k2, dmem]
    cases hma : dmem app.attrib (ns ++ "extractNativeLibs".toList) with
    | true =>
        have h1 : dmem a1 (ns ++ "extractNativeLibs".toList) = true := by rw [hm12, hma]
        rw [if_pos h1, dget?_dset_self, if_pos rfl]
    | false =>
        have h1 : ¬ dmem a1 (ns ++ "extractNativeLibs".toList) = true := by
          rw [hm12, hma]
          simp
        rw [if_neg h1, if_neg (by simp), ha1k2]
        exact dget?_eq_none_of_not_dmem hma
  refine ⟨?_, ?_, ?_⟩
  · rw [dmem, ha2k1]
    rfl
  · exact ha2k2
  · intro c hc
    have := (List.mem_filter.mp hc).2
    simpa using this

/-- C2, witness for the amended theorem, at the counterexample manifest plus
one benign child that survives the filter. -/
theorem disableSplittingAmendedWitness :
    dmem (disableApkSplitting "NS0".toList
        ⟨"application".toList, [("NS0".toList ++ "isSplitRequired".toList, "true".toList)]⟩
        [⟨"meta-data".toList,
          [("NS0".toList ++ "name".toList, "com.android.vending.splits".toList)]⟩,
         ⟨"activity".toList, []⟩]).1.attrib
      ("NS0".toList ++ "isSplitRequired".toList) = false
    ∧ dget? (disableApkSplitting "NS0".toList
        ⟨"application".toList, [("NS0".toList ++ "isSplitRequired".toList, "true".toList)]⟩
        [⟨"meta-data".toList,
          [("NS0".toList ++ "name".toList, "com.android.vending.splits".toList)]⟩,
         ⟨"activity".toList, []⟩]).1.attrib
      ("NS0".toList ++ "extractNativeLibs".toList)
        = (if dmem ([("NS0".toList ++ "isSplitRequired".toList, "true".toList)] : Dict Str)
            ("NS0".toList ++ "extractNativeLibs".toList) then some "true".toList else none)
    ∧ isSplitsMetaData "NS0".toList ⟨"activity".toList, []⟩ = false := by
  refine ⟨(disableSplittingAmended "NS0".toList _ _).1,
    (disableSplittingAmended "NS0".toList _ _).2.1,
    (disableSplittingAmended "NS0".toList
      ⟨"application".toList, [("NS0".toList ++ "isSplitRequired".toList, "true".toList)]⟩
      [⟨"meta-data".toList,
        [("NS0".toList ++ "name".toList, "com.android.vending.splits".toList)]⟩,
       ⟨"activity".toList, []⟩]).2.2 ⟨"activity".toList, []⟩ (by decide)⟩

/-- C7: a placeholder id recorded from the base table and resolved by no
split (its map entry is none) is left unchanged by step 3, and the rewriter
passes an at-form attribute reference, a bare attribute reference and an
at-form text reference to it through unchanged without raising. -/
theorem unresolvedPlaceholderUntouched (d2 : RMap) (d i ty : Str)
    (hlook : dget? d2 d = some none) (hdn : strStartsWith d dummyMarker = true)
    (hd : '/' ∉ d) (hty : '/' ∉ ty) :
    step3Entry d2 ⟨some d, some i⟩ = (⟨some d, some i⟩, false)
    ∧ rewriteRefValue d2 (('@' :: ty) ++ '/' :: d) = .ok (('@' :: ty) ++ '/' :: d, false)
    ∧ rewriteRefValue d2 d = .ok (d, false)
    ∧ rewriteTextValue d2 (('@' :: ty) ++ '/' :: d) = .ok (('@' :: ty) ++ '/' :: d, false) := by
  refine ⟨?_, ?_, ?_, ?_⟩
  · simp [step3Entry, hlook]
  · rw [rewriteRefValue_at d2 ty d hty hd hdn, hlook]
  · rw [rewriteRefValue_bare d2 d hdn, hlook]
  · rw [rewriteTextValue_at d2 ty d hty hd hdn, hlook]

/-- C7, witness at a concrete unresolved placeholder. -/
theorem unresolvedPlaceholderUntouchedWitness :
    step3Entry [("APKTOOL_DUMMY_7".toList, none)]
        ⟨some "APKTOOL_DUMMY_7".toList, some "0x7f010007".toList⟩
      = (⟨some "APKTOOL_DUMMY_7".toList, some "0x7f010007".toList⟩, false)
    ∧ rewriteRefValue [("APKTOOL_DUMMY_7".toList, none)]
        (('@' :: "string".toList) ++ '/' :: "APKTOOL_DUMMY_7".toList)
      = .ok (('@' :: "string".toList) ++ '/' :: "APKTOOL_DUMMY_7".toList, false) := by
  refine ⟨(unresolvedPlaceholderUntouched [("APKTOOL_DUMMY_7".toList, none)]
      "APKTOOL_DUMMY_7".toList "0x7f010007".toList "string".toList
      (by decide) (by decide) (by decide) (by decide)).1,
    (unresolvedPlaceholderUntouched [("APKTOOL_DUMMY_7".toList, none)]
      "APKTOOL_DUMMY_7".toList "0x7f010007".toList "string".toList
      (by decide) (by decide) (by decide) (by decide)).2.1⟩

/-- C8: the tree merger never moves anything under the split's original
artifact directory, never moves the split's own manifest or apktool.yml out
of the split root, and never moves an XML file whose destination lies under
the base tree's res root (so no structured resource document of the base is
overwritten). -/
theorem copySplitSkips (baseapkdir apkdir root fname : Str) :
    (strStartsWith root (apkdir ++ '/' :: "original".toList) = true →
        copySplitApkFileMoved baseapkdir apkdir root fname = false)
    ∧ copySplitApkFileMoved baseapkdir apkdir apkdir "AndroidManifest.xml".toList = false
    ∧ copySplitApkFileMoved baseapkdir apkdir apkdir "apktool.yml".toList = false
    ∧ (strEndsWith (strToLower fname) ".xml".toList = true →
        strStartsWith (baseapkdir ++ (root ++ '/' :: fname).drop apkdir.length)
            (baseapkdir ++ '/' :: "res".toList) = true →
        copySplitApkFileMoved baseapkdir apkdir root fname = false) := by
  refine ⟨?_, ?_, ?_, ?_⟩
  · intro h
    rw [copySplitApkFileMoved, if_pos h]
  · rw [copySplitApkFileMoved, if_neg (by rw [strStartsWith_self_ext]; simp),
      if_pos ⟨rfl, Or.inl rfl⟩]
  · rw [copySplitApkFileMoved, if_neg (by rw [strStartsWith_self_ext]; simp),
      if_pos ⟨rfl, Or.inr rfl⟩]
  · intro h1 h2
    rw [copySplitApkFileMoved]
    split
    · rfl
    · split
      · rfl
      · rw [if_pos (by rw [h1, h2]; rfl)]

/-- C8, witness at concrete paths. -/
theorem copySplitSkipsWitness :
    copySplitApkFileMoved "/t/base".toList "/t/split".toList
        "/t/split/original/META-INF".toList "MANIFEST.MF".toList = false
    ∧ copySplitApkFileMoved "/t/base".toList "/t/split".toList
        "/t/split".toList "AndroidManifest.xml".toList = false
    ∧ copySplitApkFileMoved "/t/base".toList "/t/split".toList
        "/t/split".toList "apktool.yml".toList = false
    ∧ copySplitApkFileMoved "/t/base".toList "/t/split".toList
        "/t/split/res/values".toList "Strings.XML".toList = false := by
  refine ⟨(copySplitSkips "/t/base".toList "/t/split".toList
      "/t/split/original/META-INF".toList "MANIFEST.MF".toList).1 (by decide),
    (copySplitSkips "/t/base".toList "/t/split".toList
      "/t/split".toList "x".toList).2.1,
    (copySplitSkips "/t/base".toList "/t/split".toList
      "/t/split".toList "x".toList).2.2.1,
    (copySplitSkips "/t/base".toList "/t/split".toList
      "/t/split/res/values".toList "Strings.XML".toList).2.2.2 (by decide) (by decide)⟩

/-- C4, counterexample: with the resolution map the resolver itself builds
from cexBase and cexSplit (the split resolves one placeholder id to a name
that is itself a placeholder name), step 4 rewrites the document once,
and a second run over the rewritten tree performs one more change, so the
claimed idempotence of the rewriter is false. -/
theorem rewriterNotIdempotentCex :
    step4 cexMap [.ok cexDoc] = .ok ([.ok cexDoc1], 1)
    ∧ step4 cexMap [.ok cexDoc1] = .ok ([.ok cexDoc2], 1)
    ∧ cexDoc2 ≠ cexDoc1 := by
  refine ⟨by decide, by decide, by decide⟩

/-- C4, amended: for every placeholder d resolved in step 2 to a true name,
the rewriter maps the at-form attribute reference and text reference and the
bare attribute reference to the same resolved true name; every attribute
value of a processed element is the rewrite image of the corresponding
original value (so every reference in every processed document is
rewritten); and, provided no resolved true name itself begins with the
placeholder marker or the at-sign (goodMap), running step 4 a second time
on the tree it produced makes zero further changes. -/
theorem rewriterRewritesAndIdem (m : RMap) (hg : goodMap m) :
    (∀ ty d real : Str, '/' ∉ ty → '/' ∉ d →
      strStartsWith d dummyMarker = true → dget? m d = some (some real) →
      rewriteRefValue m (('@' :: ty) ++ '/' :: d) = .ok (('@' :: ty) ++ '/' :: real, true)
      ∧ rewriteTextValue m (('@' :: ty) ++ '/' :: d) = .ok (('@' :: ty) ++ '/' :: real, true)
      ∧ rewriteRefValue m d = .ok (real, true))
    ∧ (∀ (isDraw : Bool) (attrs : List (Str × Str)) (text : Option Str)
        (out : List (Str × Str) × Option Str × Nat × Bool),
        procAttrs m isDraw attrs text = .ok out →
        List.Forall₂
          (fun p q : Str × Str => p.1 = q.1 ∧ ∃ ch, rewriteRefValue m p.2 = .ok (q.2, ch))
          attrs out.1)
    ∧ (∀ (files files' : List ResFile) (u : Nat),
        step4 m files = .ok (files', u) → step4 m files' = .ok (files', 0)) := by
  refine ⟨?_, ?_, ?_⟩
  · intro ty d real hty hd hdn hlook
    refine ⟨?_, ?_, ?_⟩
    · rw [rewriteRefValue_at m ty d hty hd hdn, hlook]
    · rw [rewriteTextValue_at m ty d hty hd hdn, hlook]
    · rw [rewriteRefValue_bare m d hdn, hlook]
  · intro isDraw attrs text out h
    exact procAttrs_forall2 h
  · intro files files' u h
    exact step4_stable hg h

/-- C4, witness for the amended theorem: a benign one-entry map, rewriting a
reference and re-running step 4 on the result with no further change. -/
theorem rewriterRewritesAndIdemWitness :
    rewriteRefValue [("APKTOOL_DUMMY_1".toList, some "app_name".toList)]
        (('@' :: "string".toList) ++ '/' :: "APKTOOL_DUMMY_1".toList)
      = .ok (('@' :: "string".toList) ++ '/' :: "app_name".toList, true)
    ∧ step4 [("APKTOOL_DUMMY_1".toList, some "app_name".toList)]
        [.ok ⟨"layout.xml".toList,
          [⟨[("x".toList, "@string/APKTOOL_DUMMY_1".toList)], none⟩]⟩]
      = .ok ([.ok ⟨"layout.xml".toList,
          [⟨[("x".toList, "@string/app_name".toList)], none⟩]⟩], 1)
    ∧ step4 [("APKTOOL_DUMMY_1".toList, some "app_name".toList)]
        [.ok ⟨"layout.xml".toList,
          [⟨[("x".toList, "@string/app_name".toList)], none⟩]⟩]
      = .ok ([.ok ⟨"layout.xml".toList,
          [⟨[("x".toList, "@string/app_name".toList)], none⟩]⟩], 0) := by
  refine ⟨(rewriterRewritesAndIdem [("APKTOOL_DUMMY_1".toList, some "app_name".toList)]
      (by decide)).1 "string".toList "APKTOOL_DUMMY_1".toList "app_name".toList
      (by decide) (by decide) (by decide) (by decide) |>.1,
    by decide,
    (rewriterRewritesAndIdem [("APKTOOL_DUMMY_1".toList, some "app_name".toList)]
      (by decide)).2.2
      [.ok ⟨"layout.xml".toList, [⟨[("x".toList, "@string/APKTOOL_DUMMY_1".toList)], none⟩]⟩]
      [.ok ⟨"layout.xml".toList, [⟨[("x".toList, "@string/app_name".toList)], none⟩]⟩]
      1 (by decide)⟩

/-- C6: after the duplicate style filter runs to completion on a styles.xml,
the result keeps, within each style, exactly the first occurrence of each
item name in document order (so each style contains each key at most once),
the reported count equals the total number of items removed, and the file is
written back exactly when at least one duplicate was removed. -/
theorem stylesDedupCorrect (styles : List StyleEl) (res : Option (List StyleEl))
    (total : Nat) (wrote : Bool)
    (h : hackRemoveDuplicateStyleEntries (some styles) = .ok (res, total, wrote)) :
    res = some (styles.map (fun st => { st with items := keepFirstOccurrences [] st.items }))
    ∧ total + (styles.map (fun st => (keepFirstOccurrences [] st.items).length)).sum
        = (styles.map (fun st => st.items.length)).sum
    ∧ (∀ st ∈ styles, ((keepFirstOccurrences [] st.items).filterMap (fun it => it.name)).Nodup)
    ∧ (wrote = true ↔ 0 < total) := by
  rw [hackRemoveDuplicateStyleEntries] at h
  split at h
  · exact absurd h (by simp)
  · rename_i newStyles t0 hsc
    obtain ⟨h1, h2⟩ := scanStyles_ok hsc
    split at h
    · rename_i hpos
      cases h
      refine ⟨by rw [h1], h2, ?_, by simp [hpos]⟩
      intro st _
      exact (keepFirst_names_nodup st.items []).1
    · rename_i hpos
      cases h
      have ht0 : total = 0 := by omega
      have hsum : (styles.map (fun st => (keepFirstOccurrences [] st.items).length)).sum
          = (styles.map (fun st => st.items.length)).sum := by omega
      refine ⟨by rw [map_keepFirst_eq_of_sum styles hsum], h2, ?_, by simp [ht0]⟩
      intro st _
      exact (keepFirst_names_nodup st.items []).1

/-- C6, witness: one style with a duplicated item key. -/
theorem stylesDedupCorrectWitness :
    (some [(⟨"s".toList, [⟨some "a".toList, "v1".toList⟩]⟩ : StyleEl)]
        = some ([(⟨"s".toList, [⟨some "a".toList, "v1".toList⟩,
            ⟨some "a".toList, "v2".toList⟩]⟩ : StyleEl)].map
          (fun st => { st with items := keepFirstOccurrences [] st.items })))
    ∧ 1 + ([(⟨"s".toList, [⟨some "a".toList, "v1".toList⟩,
          ⟨some "a".toList, "v2".toList⟩]⟩ : StyleEl)].map
        (fun st => (keepFirstOccurrences [] st.items).length)).sum
      = ([(⟨"s".toList, [⟨some "a".toList, "v1".toList⟩,
          ⟨some "a".toList, "v2".toList⟩]⟩ : StyleEl)].map
        (fun st => st.items.length)).sum
    ∧ (((keepFirstOccurrences []
        [⟨some "a".toList, "v1".toList⟩, ⟨some "a".toList, "v2".toList⟩]).filterMap
          (fun it => it.name)).Nodup)
    ∧ (true = true ↔ 0 < 1) := by
  refine ⟨(stylesDedupCorrect [⟨"s".toList, [⟨some "a".toList, "v1".toList⟩,
        ⟨some "a".toList, "v2".toList⟩]⟩]
      (some [⟨"s".toList, [⟨some "a".toList, "v1".toList⟩]⟩]) 1 true (by decide)).1,
    (stylesDedupCorrect [⟨"s".toList, [⟨some "a".toList, "v1".toList⟩,
        ⟨some "a".toList, "v2".toList⟩]⟩]
      (some [⟨"s".toList, [⟨some "a".toList, "v1".toList⟩]⟩]) 1 true (by decide)).2.1,
    (stylesDedupCorrect [⟨"s".toList, [⟨some "a".toList, "v1".toList⟩,
        ⟨some "a".toList, "v2".toList⟩]⟩]
      (some [⟨"s".toList, [⟨some "a".toList, "v1".toList⟩]⟩]) 1 true (by decide)).2.2.1
      ⟨"s".toList, [⟨some "a".toList, "v1".toList⟩, ⟨some "a".toList, "v2".toList⟩]⟩
      (by decide),
    (stylesDedupCorrect [⟨"s".toList, [⟨some "a".toList, "v1".toList⟩,
        ⟨some "a".toList, "v2".toList⟩]⟩]
      (some [⟨"s".toList, [⟨some "a".toList, "v1".toList⟩]⟩]) 1 true (by decide)).2.2.2⟩

/-- C10: a reference whose name begins with the placeholder marker but was
never recorded from the base table makes the lookup raise: the value rewrite
returns an error instead of leaving the reference untouched, a document
holding such an attribute value fails to process, such a failure aborts the
whole step 4 pass, and only parse failures are caught and skipped (a tree
whose parsed documents all process cleanly succeeds, parse failures
notwithstanding). -/
theorem unknownDummyRefAborts :
    (∀ (m : RMap) (n ty : Str), strStartsWith n dummyMarker = true → dget? m n = none →
        '/' ∉ n → '/' ∉ ty →
        rewriteRefValue m (('@' :: ty) ++ '/' :: n) = .error ()
        ∧ rewriteTextValue m (('@' :: ty) ++ '/' :: n) = .error ()
        ∧ rewriteRefValue m n = .error ())
    ∧ (∀ (m : RMap) (doc : XmlDoc) (el : XmlEl) (a v : Str),
        el ∈ doc.els → (a, v) ∈ el.attrib → rewriteRefValue m v = .error () →
        processDoc m doc = .error ())
    ∧ (∀ (m : RMap) (files : List ResFile) (doc : XmlDoc),
        Except.ok doc ∈ files → processDoc m doc = .error () →
        step4 m files = .error ())
    ∧ (∀ (m : RMap) (files : List ResFile),
        (∀ doc : XmlDoc, Except.ok doc ∈ files → ∃ r, processDoc m doc = .ok r) →
        ∃ out, step4 m files = .ok out) := by
  refine ⟨?_, ?_, ?_, ?_⟩
  · intro m n ty hdn hlook hn hty
    refine ⟨?_, ?_, ?_⟩
    · rw [rewriteRefValue_at m ty n hty hn hdn, hlook]
    · rw [rewriteTextValue_at m ty n hty hn hdn, hlook]
    · rw [rewriteRefValue_bare m n hdn, hlook]
  · exact fun m doc el a v hel hmem herr => processDoc_error_of_attr hel hmem herr
  · exact fun m files doc hmem herr => step4_error_of_mem hmem herr
  · exact fun m files h => step4_ok_of_all h

/-- C10, witness: an empty map, a reference to an unrecorded placeholder,
the abort of the pass over a tree holding it, and the skip of a pure parse
failure. -/
theorem unknownDummyRefAbortsWitness :
    rewriteRefValue [] (('@' :: "string".toList) ++ '/' :: "APKTOOL_DUMMY_9".toList)
      = .error ()
    ∧ processDoc [] ⟨"layout.xml".toList,
        [⟨[("x".toList, "@string/APKTOOL_DUMMY_9".toList)], none⟩]⟩ = .error ()
    ∧ step4 [] [.ok ⟨"layout.xml".toList,
        [⟨[("x".toList, "@string/APKTOOL_DUMMY_9".toList)], none⟩]⟩] = .error ()
    ∧ ∃ out, step4 [] [(.error () : ResFile)] = .ok out := by
  refine ⟨(unknownDummyRefAborts.1 [] "APKTOOL_DUMMY_9".toList "string".toList
      (by decide) (by decide) (by decide) (by decide)).1,
    unknownDummyRefAborts.2.1 [] ⟨"layout.xml".toList,
        [⟨[("x".toList, "@string/APKTOOL_DUMMY_9".toList)], none⟩]⟩
      ⟨[("x".toList, "@string/APKTOOL_DUMMY_9".toList)], none⟩
      "x".toList "@string/APKTOOL_DUMMY_9".toList
      (by decide) (by decide) (by decide),
    unknownDummyRefAborts.2.2.1 []
      [.ok ⟨"layout.xml".toList,
        [⟨[("x".toList, "@string/APKTOOL_DUMMY_9".toList)], none⟩]⟩]
      ⟨"layout.xml".toList,
        [⟨[("x".toList, "@string/APKTOOL_DUMMY_9".toList)], none⟩]⟩
      (by decide) (by decide),
    unknownDummyRefAborts.2.2.2 [] [(.error () : ResFile)]
      (by intro doc hmem; simp at hmem)⟩

end PatchApk
